import Mathlib

/-!
Verification development for the magicblock-validator ledger storage core:
the typed column handle (`magicblock-ledger/src/database/ledger_column.rs`)
and the ledger truncator policy (modelled from the specification, since
`ledger_truncator.rs` itself is not among the provided sources, only its
tests are).

Machine integers are modelled as `Int` with explicit two's-complement
wrapping where the source performs 64-bit arithmetic or a `u64 -> i64` cast.
-/

/-- Two's-complement wrap of an integer into the `i64` range
`[-2^63, 2^63)`, modelling Rust 64-bit signed arithmetic results. -/
def wrapI64 (n : Int) : Int := (n + 2 ^ 63) % 2 ^ 64 - 2 ^ 63

/-- The Rust cast `x as i64` applied to a `u64` value `n < 2^64`:
a defined, wrapping conversion (same in debug and release profiles). -/
def u64AsI64 (n : Nat) : Int := wrapI64 n

/-- Dirty sentinel of the cached entry counter.  Declared in
`database/columns.rs` (not among the provided sources); the comment on
`LedgerColumn.entry_counter` in `ledger_column.rs` (lines 44-52) documents
it: `-1` indicates that the counts are dirty. -/
def DIRTY_COUNT : Int := -1

/-- Sequential model of `try_increase_entry_counter` in
`ledger_column.rs` lines 545-565: if the counter is `DIRTY_COUNT` the call
is a no-op, otherwise the counter becomes `prev + by as i64` (the
compare-and-swap retry loop collapses to a single update in the
sequential model). -/
def try_increase_entry_counter (c : Int) (amt : Nat) : Int :=
  if c = DIRTY_COUNT then c
  else wrapI64 (c + u64AsI64 amt)

/-- Sequential model of `try_decrease_entry_counter` in
`ledger_column.rs` lines 569-606: no-op on the sentinel; otherwise
`new = prev - by as i64` is stored when `new >= 0`, and the counter is
reset to `DIRTY_COUNT` when `new` is negative. -/
def try_decrease_entry_counter (c : Int) (amt : Nat) : Int :=
  if c = DIRTY_COUNT then c
  else
    let n := wrapI64 (c - u64AsI64 amt)
    if 0 ≤ n then n else DIRTY_COUNT

/-- One call against the entry counter. -/
inductive CounterOp where
  | inc (amt : Nat)
  | dec (amt : Nat)
deriving DecidableEq, Repr

/-- Apply one counter call. -/
def applyOp (c : Int) : CounterOp → Int
  | .inc a => try_increase_entry_counter c a
  | .dec a => try_decrease_entry_counter c a

/-- Apply a finite sequence of counter calls sequentially. -/
def applyOps (c : Int) (ops : List CounterOp) : Int := ops.foldl applyOp c

/-- The algebraic delta of one call as the specification reads it:
`+by` for an increment, `-by` for a decrement. -/
def opDelta : CounterOp → Int
  | .inc a => (a : Int)
  | .dec a => -(a : Int)

/-- Algebraic sum of the deltas of a call sequence. -/
def algSum (ops : List CounterOp) : Int := (ops.map opDelta).sum

/-- `hasNegDec s ops` holds exactly when, running the ideal (unbounded
integer) computation from `s`, some decrement would make the running
value negative — the condition under which the claim says the counter
becomes the dirty sentinel. -/
def hasNegDec (s : Int) : List CounterOp → Bool
  | [] => false
  | .inc a :: rest => hasNegDec (s + a) rest
  | .dec a :: rest => if s - (a : Int) < 0 then true else hasNegDec (s - (a : Int)) rest

theorem wrapI64_eq_self {n : Int} (h1 : -(2 ^ 63) ≤ n) (h2 : n < 2 ^ 63) :
    wrapI64 n = n := by
  unfold wrapI64
  have h0 : (0 : Int) ≤ n + 2 ^ 63 := by linarith
  have hlt : n + 2 ^ 63 < 2 ^ 64 := by
    have : (2 : Int) ^ 64 = 2 ^ 63 + 2 ^ 63 := by norm_num
    linarith
  rw [Int.emod_eq_of_lt h0 hlt]
  ring

theorem natCast_lb (a : Nat) : -(2 ^ 63 : Int) ≤ (a : Int) :=
  le_trans (by norm_num) (Nat.cast_nonneg a)

theorem applyOps_dirty (ops : List CounterOp) :
    applyOps DIRTY_COUNT ops = DIRTY_COUNT := by
  induction ops with
  | nil => rfl
  | cons op rest ih =>
    have h : applyOp DIRTY_COUNT op = DIRTY_COUNT := by
      cases op <;> simp [applyOp, try_increase_entry_counter, try_decrease_entry_counter]
    simp [applyOps, List.foldl, h]
    exact ih

theorem algSum_nil : algSum [] = 0 := rfl

theorem algSum_cons (op : CounterOp) (ops : List CounterOp) :
    algSum (op :: ops) = opDelta op + algSum ops := by
  simp [algSum]

/-- If no decrement ever makes the ideal running value negative, the final
ideal value is nonnegative. -/
theorem algSum_nonneg_of_not_hasNegDec (ops : List CounterOp) :
    ∀ s : Int, 0 ≤ s → hasNegDec s ops = false → 0 ≤ s + algSum ops := by
  induction ops with
  | nil => intro s hs _; simpa [algSum] using hs
  | cons op rest ih =>
    intro s hs hneg
    cases op with
    | inc a =>
      have h := ih (s + a)
        (by have := Nat.cast_nonneg (α := ℤ) a; linarith)
        (by simpa [hasNegDec] using hneg)
      rw [algSum_cons]; simp only [opDelta]; linarith
    | dec a =>
      by_cases hlt : s - (a : Int) < 0
      · exfalso; simp [hasNegDec, hlt] at hneg
      · have hge : 0 ≤ s - (a : Int) := by linarith
        have h := ih (s - a) hge (by simpa [hasNegDec, hlt] using hneg)
        rw [algSum_cons]; simp only [opDelta]; linarith

/-- Core run lemma: starting fresh (nonnegative) and with all running sums
below `2^63` and all decrement amounts below `2^63`, the sequential
execution of the counter calls computes exactly the claim's ideal value:
the start plus the algebraic sum, unless some decrement would go negative,
in which case the dirty sentinel. -/
theorem applyOps_spec (ops : List CounterOp) :
    ∀ s : Int, 0 ≤ s →
    (∀ pre ∈ ops.inits, s + algSum pre < 2 ^ 63) →
    (∀ a : Nat, CounterOp.dec a ∈ ops → (a : Int) < 2 ^ 63) →
    applyOps s ops = (if hasNegDec s ops then DIRTY_COUNT else s + algSum ops) := by
  induction ops with
  | nil =>
    intro s _ _ _
    simp [applyOps, hasNegDec, algSum]
  | cons op rest ih =>
    intro s hs hsum hdec
    have hsrange : s < 2 ^ 63 := by
      have := hsum [] (by simp)
      simpa [algSum] using this
    cases op with
    | inc a =>
      have hstep : s + (a : Int) < 2 ^ 63 := by
        have := hsum [CounterOp.inc a] (by simp [List.inits])
        simpa [algSum, opDelta] using this
      have ha : (a : Int) < 2 ^ 63 := by
        have : (0 : Int) ≤ s := hs
        linarith
      have hwa : u64AsI64 a = (a : Int) := by
        unfold u64AsI64
        exact wrapI64_eq_self (natCast_lb a) ha
      have hne : s ≠ DIRTY_COUNT := by
        unfold DIRTY_COUNT; intro h; rw [h] at hs; norm_num at hs
      have hanneg : (0 : Int) ≤ (a : Int) := Nat.cast_nonneg a
      have hval : try_increase_entry_counter s a = s + (a : Int) := by
        unfold try_increase_entry_counter
        rw [if_neg hne, hwa]
        exact wrapI64_eq_self (by linarith) hstep
      have hrec := ih (s + a) (by linarith)
        (fun pre hpre => by
          have := hsum (CounterOp.inc a :: pre) (by simp [List.inits, hpre])
          rw [algSum_cons] at this
          simp only [opDelta] at this
          linarith)
        (fun b hb => hdec b (by simp [hb]))
      calc applyOps s (CounterOp.inc a :: rest)
          = applyOps (s + a) rest := by simp [applyOps, List.foldl, applyOp, hval]
        _ = _ := by
            rw [hrec, algSum_cons]
            simp only [hasNegDec, opDelta]
            split <;> ring_nf
    | dec a =>
      have ha : (a : Int) < 2 ^ 63 := hdec a (by simp)
      have hwa : u64AsI64 a = (a : Int) := by
        unfold u64AsI64
        exact wrapI64_eq_self (natCast_lb a) ha
      have hne : s ≠ DIRTY_COUNT := by
        unfold DIRTY_COUNT; intro h; rw [h] at hs; norm_num at hs
      have hwrap : wrapI64 (s - u64AsI64 a) = s - (a : Int) := by
        rw [hwa]
        exact wrapI64_eq_self (by linarith) (by linarith [Nat.cast_nonneg (α := Int) a])
      by_cases hneg : s - (a : Int) < 0
      · have hval : try_decrease_entry_counter s a = DIRTY_COUNT := by
          unfold try_decrease_entry_counter
          rw [if_neg hne]
          simp only [hwrap]
          rw [if_neg (by linarith)]
        have : applyOps s (CounterOp.dec a :: rest) = DIRTY_COUNT := by
          simp only [applyOps, List.foldl, applyOp, hval]
          exact applyOps_dirty rest
        rw [this]
        simp [hasNegDec, hneg]
      · have hge : 0 ≤ s - (a : Int) := by linarith
        have hval : try_decrease_entry_counter s a = s - (a : Int) := by
          unfold try_decrease_entry_counter
          rw [if_neg hne]
          simp only [hwrap]
          rw [if_pos hge]
        have hrec := ih (s - a) hge
          (fun pre hpre => by
            have := hsum (CounterOp.dec a :: pre) (by simp [List.inits, hpre])
            rw [algSum_cons] at this
            simp only [opDelta] at this
            linarith)
          (fun b hb => hdec b (by simp [hb]))
        calc applyOps s (CounterOp.dec a :: rest)
            = applyOps (s - a) rest := by simp [applyOps, List.foldl, applyOp, hval]
          _ = _ := by
              rw [hrec, algSum_cons]
              simp only [hasNegDec, if_neg hneg, opDelta]
              split <;> ring_nf

/-- In-range characterisation of a single decrement: for a counter value
in `[0, 2^63)` and an amount below `2^63`, the stored value is the exact
difference when nonnegative and the dirty sentinel otherwise. -/
theorem try_decrease_in_range (v : Int) (hv : 0 ≤ v) (hlt : v < 2 ^ 63)
    (a : Nat) (ha : (a : Int) < 2 ^ 63) :
    try_decrease_entry_counter v a =
      (if 0 ≤ v - (a : Int) then v - (a : Int) else DIRTY_COUNT) := by
  have hne : v ≠ DIRTY_COUNT := by
    unfold DIRTY_COUNT; intro h; rw [h] at hv; norm_num at hv
  have hanneg : (0 : Int) ≤ (a : Int) := Nat.cast_nonneg a
  have hwa : u64AsI64 a = (a : Int) := wrapI64_eq_self (natCast_lb a) ha
  have hwrap : wrapI64 (v - u64AsI64 a) = v - (a : Int) := by
    rw [hwa]
    exact wrapI64_eq_self (by linarith) (by linarith)
  unfold try_decrease_entry_counter
  rw [if_neg hne]
  simp only [hwrap]

/-- Claim C3 (amended): starting from a fresh nonnegative counter value,
provided every delta is below `2^63` (so the `u64 -> i64` cast is exact)
and every running partial sum stays below `2^63` (no `i64` overflow), the
final counter value is the start plus the algebraic sum of the deltas,
unless some decrement would make the running value negative, in which case
the counter is the dirty sentinel from that call onward; along the whole
run the counter never holds a negative value other than the dirty
sentinel. -/
theorem c3_entry_counter_algebraic_sum (s : Int) (ops : List CounterOp)
    (h0 : 0 ≤ s)
    (hsum : ∀ pre ∈ ops.inits, s + algSum pre < 2 ^ 63)
    (hdec : ∀ a : Nat, CounterOp.dec a ∈ ops → (a : Int) < 2 ^ 63) :
    applyOps s ops = (if hasNegDec s ops then DIRTY_COUNT else s + algSum ops) ∧
    ∀ pre ∈ ops.inits, applyOps s pre = DIRTY_COUNT ∨ 0 ≤ applyOps s pre := by
  refine ⟨applyOps_spec ops s h0 hsum hdec, ?_⟩
  intro pre hpre
  have hp := (List.mem_inits _ _).mp hpre
  have hsum' : ∀ q ∈ pre.inits, s + algSum q < 2 ^ 63 := by
    intro q hq
    exact hsum q ((List.mem_inits _ _).mpr (((List.mem_inits _ _).mp hq).trans hp))
  have hdec' : ∀ a : Nat, CounterOp.dec a ∈ pre → (a : Int) < 2 ^ 63 := by
    intro a haq
    exact hdec a (hp.sublist.subset haq)
  rw [applyOps_spec pre s h0 hsum' hdec']
  by_cases hneg : hasNegDec s pre
  · left; rw [if_pos hneg]
  · right
    rw [if_neg hneg]
    exact algSum_nonneg_of_not_hasNegDec pre s h0 (by simpa using hneg)

/-- Claim C3 counterexample: the claim as stated is false on the code.  A
single call `try_increase_entry_counter(by = 2^64 - 2)` from a fresh
counter value `0` stores `-2`, because the source computes
`prev + by as i64` and the `u64 -> i64` cast of `2^64 - 2` wraps to `-2`
(defined Rust behaviour in every profile).  The result is negative, is not
the dirty sentinel, and differs from the algebraic sum `0 + (2^64 - 2)`,
even though no decrement ever makes the running value negative. -/
theorem c3_counterexample :
    applyOps 0 [CounterOp.inc (2 ^ 64 - 2)] = -2 ∧
    applyOps 0 [CounterOp.inc (2 ^ 64 - 2)] ≠ 0 + algSum [CounterOp.inc (2 ^ 64 - 2)] ∧
    applyOps 0 [CounterOp.inc (2 ^ 64 - 2)] < 0 ∧
    applyOps 0 [CounterOp.inc (2 ^ 64 - 2)] ≠ DIRTY_COUNT ∧
    hasNegDec 0 [CounterOp.inc (2 ^ 64 - 2)] = false := by decide

/-- Witness for the amended C3 theorem at the concrete run
`start = 3, [inc 2, dec 1]`. -/
theorem c3_witness :
    applyOps 3 [CounterOp.inc 2, CounterOp.dec 1] =
      (if hasNegDec 3 [CounterOp.inc 2, CounterOp.dec 1] then DIRTY_COUNT
       else 3 + algSum [CounterOp.inc 2, CounterOp.dec 1]) ∧
    ∀ pre ∈ ([CounterOp.inc 2, CounterOp.dec 1] : List CounterOp).inits,
      applyOps 3 pre = DIRTY_COUNT ∨ 0 ≤ applyOps 3 pre :=
  c3_entry_counter_algebraic_sum 3 [CounterOp.inc 2, CounterOp.dec 1]
    (by norm_num)
    (by decide)
    (by intro a ha; simp at ha; subst ha; norm_num)

/-- Claim C4: when the entry counter holds the dirty sentinel, both
`try_increase_entry_counter` and `try_decrease_entry_counter` are no-ops
for every delta: the dirty state is never overwritten. -/
theorem c4_dirty_sentinel_absorbing (amt : Nat) :
    try_increase_entry_counter DIRTY_COUNT amt = DIRTY_COUNT ∧
    try_decrease_entry_counter DIRTY_COUNT amt = DIRTY_COUNT := by
  constructor <;> simp [try_increase_entry_counter, try_decrease_entry_counter]

/-- Claim C10: for every non-dirty, nonnegative in-range counter value
`v`, decreasing by exactly `v` yields `0` (a valid count, not the
sentinel); and in general a decrement stores the exact difference when it
is nonnegative, resetting to the dirty sentinel exactly when the result
would be strictly negative. -/
theorem c10_exact_decrease_reaches_zero (v : Int) (hv : 0 ≤ v) (hlt : v < 2 ^ 63) :
    try_decrease_entry_counter v v.toNat = 0 ∧
    try_decrease_entry_counter v v.toNat ≠ DIRTY_COUNT ∧
    ∀ a : Nat, (a : Int) < 2 ^ 63 →
      (0 ≤ v - (a : Int) → try_decrease_entry_counter v a = v - (a : Int)) ∧
      (v - (a : Int) < 0 → try_decrease_entry_counter v a = DIRTY_COUNT) := by
  have hcast : ((v.toNat : Nat) : Int) = v := Int.toNat_of_nonneg hv
  have hself : try_decrease_entry_counter v v.toNat = 0 := by
    rw [try_decrease_in_range v hv hlt v.toNat (by rw [hcast]; exact hlt), hcast]
    simp
  refine ⟨hself, ?_, ?_⟩
  · rw [hself]; unfold DIRTY_COUNT; norm_num
  · intro a ha
    constructor
    · intro hge
      rw [try_decrease_in_range v hv hlt a ha, if_pos hge]
    · intro hneg
      rw [try_decrease_in_range v hv hlt a ha, if_neg (by linarith)]

/-- Witness for C10 at the concrete value `v = 3`. -/
theorem c10_witness :
    try_decrease_entry_counter 3 (3 : Int).toNat = 0 ∧
    try_decrease_entry_counter 3 (3 : Int).toNat ≠ DIRTY_COUNT ∧
    ∀ a : Nat, (a : Int) < 2 ^ 63 →
      (0 ≤ 3 - (a : Int) → try_decrease_entry_counter 3 a = 3 - (a : Int)) ∧
      (3 - (a : Int) < 0 → try_decrease_entry_counter 3 a = DIRTY_COUNT) :=
  c10_exact_decrease_reaches_zero 3 (by norm_num) (by norm_num)

/-- Raw byte strings stored in the backend. -/
abbrev Bytes := List Nat

/-- One column family of the backend, modelled as an association list from
encoded key bytes to stored value bytes (the `Rocks` backend keeps one
value per key; `storePut` maintains key uniqueness). -/
abbrev Store := List (Bytes × Bytes)

/-- Error taxonomy of the storage layer (`errors.rs` is not among the
provided sources; only the distinction between a backend I/O error and a
decode error matters to the claims). -/
inductive LedgerError where
  | io
  | decodeFailed
deriving DecidableEq, Repr

/-- Backend `put_cf`: store `v` under key `k`, replacing any previous
value for `k`. -/
def storePut (st : Store) (k v : Bytes) : Store :=
  (k, v) :: st.filter (fun p => p.1 ≠ k)

theorem storePut_lookup_self (st : Store) (k v : Bytes) :
    (storePut st k v).lookup k = some v := by
  simp [storePut, List.lookup]

/-- Model of `LedgerColumn::get` (`ledger_column.rs` lines 359-391, via
`get_raw`): read the bytes at the encoded key and deserialize them with
the column's compact-binary codec; absent key yields `Ok(None)`, a decode
failure propagates as an error.  `key` is the column's `C::key` index
codec and `de` the column's `bincode::deserialize` for `C::Type`. -/
def col_get {ι τ : Type} (key : ι → Bytes) (de : Bytes → Except LedgerError τ)
    (st : Store) (k : ι) : Except LedgerError (Option τ) :=
  match st.lookup (key k) with
  | none => .ok none
  | some bytes => (de bytes).map some

/-- Model of `LedgerColumn::put` (`ledger_column.rs` lines 393-417):
serialize the value with the column's compact-binary codec (`ser` models
`bincode::serialize`, total on the domain values) and write the bytes
under the encoded key. -/
def col_put {ι τ : Type} (key : ι → Bytes) (ser : τ → Bytes)
    (st : Store) (k : ι) (v : τ) : Store :=
  storePut st (key k) (ser v)

/-- Model of `LedgerColumn::multi_get` (`ledger_column.rs` lines 318-357):
map every input index to an independent per-index result; each element is
`Ok(None)` for an absent key, and for present bytes the deserialization
result (the `?` inside the per-element closure only fails that element). -/
def multi_get {ι τ : Type} (key : ι → Bytes) (de : Bytes → Except LedgerError τ)
    (st : Store) (ks : List ι) : List (Except LedgerError (Option τ)) :=
  ks.map (fun k =>
    match st.lookup (key k) with
    | none => .ok none
    | some bytes => (de bytes).map some)

/-- Model of `LedgerColumn::get_raw_protobuf_or_bincode`
(`ledger_column.rs` lines 431-460): read the bytes at the raw key, first
attempt the protobuf decode `pdec` (`C::Type::decode`); exactly on its
failure reinterpret the same bytes under the legacy bincode codec `bde`
and convert with `conv` (the `Into<C::Type>` conversion). -/
def get_raw_protobuf_or_bincode {σ ρ : Type}
    (pdec : Bytes → Except LedgerError σ) (bde : Bytes → Except LedgerError ρ)
    (conv : ρ → σ) (st : Store) (rawKey : Bytes) :
    Except LedgerError (Option σ) :=
  match st.lookup rawKey with
  | none => .ok none
  | some bytes =>
    match pdec bytes with
    | .ok value => .ok (some value)
    | .error _ => (bde bytes).map (fun w => some (conv w))

/-- Model of `LedgerColumn::put_protobuf` (`ledger_column.rs` lines
487-510): encode the value with the protobuf (schema) codec `penc` and
write those bytes under the encoded key — the legacy codec is never used
on the write path. -/
def put_protobuf {ι σ : Type} (key : ι → Bytes) (penc : σ → Bytes)
    (st : Store) (k : ι) (v : σ) : Store :=
  storePut st (key k) (penc v)

/-- Claim C5: `put(k, v)` followed by `get(k)` returns `Some(v)` whenever
the column's codec round-trips (the codec contract of `bincode`), and the
dual-codec path also round-trips: bytes written under the legacy bincode
codec are decoded by the schema-with-fallback read to the converted
equivalent value, given that the schema decode rejects those legacy bytes
(the fallback condition of the source; the spec flags that nothing guards
against a legacy byte string that happens to parse as a schema value). -/
theorem c5_put_get_roundtrip {ι τ σ ρ : Type}
    (key : ι → Bytes) (ser : τ → Bytes) (de : Bytes → Except LedgerError τ)
    (pdec : Bytes → Except LedgerError σ) (bser : ρ → Bytes)
    (bde : Bytes → Except LedgerError ρ) (conv : ρ → σ)
    (st : Store) (k : ι) (v : τ) (w : ρ)
    (hrt : de (ser v) = .ok v)
    (hbrt : bde (bser w) = .ok w)
    (hpfail : ∃ e, pdec (bser w) = .error e) :
    col_get key de (col_put key ser st k v) k = .ok (some v) ∧
    get_raw_protobuf_or_bincode pdec bde conv
      (storePut st (key k) (bser w)) (key k) = .ok (some (conv w)) := by
  constructor
  · unfold col_get col_put
    rw [storePut_lookup_self]
    simp [hrt, Except.map]
  · obtain ⟨e, he⟩ := hpfail
    unfold get_raw_protobuf_or_bincode
    rw [storePut_lookup_self]
    simp [he, hbrt, Except.map]

/-- Witness for C5 with a concrete two-byte tagged codec: schema values
are framed `[1, n]`, legacy values `[0, n]`, so the schema decode fails on
every legacy byte string. -/
theorem c5_witness :
    col_get (fun n : Nat => [n])
      (fun b => match b with | [0, n] => .ok n | _ => .error LedgerError.decodeFailed)
      (col_put (fun n : Nat => [n]) (fun n : Nat => [0, n]) [] 4 7) 4 = .ok (some 7) ∧
    get_raw_protobuf_or_bincode
      (fun b => match b with | [1, n] => .ok n | _ => .error LedgerError.decodeFailed)
      (fun b => match b with | [0, n] => .ok n | _ => .error LedgerError.decodeFailed)
      (fun n : Nat => n)
      (storePut [] ((fun n : Nat => [n]) 4) ((fun n : Nat => [0, n]) 9))
      ((fun n : Nat => [n]) 4) = .ok (some ((fun n : Nat => n) 9)) :=
  c5_put_get_roundtrip (fun n : Nat => [n]) (fun n : Nat => [0, n])
    (fun b => match b with | [0, n] => .ok n | _ => .error LedgerError.decodeFailed)
    (fun b => match b with | [1, n] => .ok n | _ => .error LedgerError.decodeFailed)
    (fun n : Nat => [0, n])
    (fun b => match b with | [0, n] => .ok n | _ => .error LedgerError.decodeFailed)
    (fun n : Nat => n) [] 4 7 9 rfl rfl ⟨LedgerError.decodeFailed, rfl⟩

/-- Claim C6: on a schema-capable column, a read of present bytes first
attempts the schema (protobuf) decode and returns its value on success;
exactly when that decode fails, the same bytes are decoded under the
legacy bincode codec and converted into the column's value type; and the
write path stores exactly the schema encoding of the value, never the
legacy encoding. -/
theorem c6_schema_fallback_discipline {ι σ ρ : Type}
    (key : ι → Bytes) (penc : σ → Bytes)
    (pdec : Bytes → Except LedgerError σ) (bde : Bytes → Except LedgerError ρ)
    (conv : ρ → σ) (st : Store) (rawKey : Bytes) (bytes : Bytes)
    (hlook : st.lookup rawKey = some bytes) :
    (∀ v, pdec bytes = .ok v →
      get_raw_protobuf_or_bincode pdec bde conv st rawKey = .ok (some v)) ∧
    (∀ e, pdec bytes = .error e →
      get_raw_protobuf_or_bincode pdec bde conv st rawKey =
        (bde bytes).map (fun w => some (conv w))) ∧
    (∀ (k : ι) (v : σ),
      (put_protobuf key penc st k v).lookup (key k) = some (penc v)) := by
  refine ⟨?_, ?_, ?_⟩
  · intro v hv
    unfold get_raw_protobuf_or_bincode
    rw [hlook]
    simp [hv]
  · intro e he
    unfold get_raw_protobuf_or_bincode
    rw [hlook]
    simp [he]
  · intro k v
    exact storePut_lookup_self st (key k) (penc v)

/-- Witness for C6 at the tagged toy codecs: a schema-framed byte string
decodes on the primary path, a legacy-framed one takes the fallback, and a
write stores the schema framing. -/
theorem c6_witness :
    (∀ v, (fun b => match b with | [1, n] => Except.ok n | _ => Except.error LedgerError.decodeFailed) [1, 5] = .ok v →
      get_raw_protobuf_or_bincode
        (fun b => match b with | [1, n] => .ok n | _ => .error LedgerError.decodeFailed)
        (fun b => match b with | [0, n] => .ok n | _ => .error LedgerError.decodeFailed)
        (fun n : Nat => n) [([4], [1, 5])] [4] = .ok (some v)) ∧
    (∀ e, (fun b => match b with | [1, n] => Except.ok n | _ => Except.error LedgerError.decodeFailed) [1, 5] = .error e →
      get_raw_protobuf_or_bincode
        (fun b => match b with | [1, n] => .ok n | _ => .error LedgerError.decodeFailed)
        (fun b => match b with | [0, n] => .ok n | _ => .error LedgerError.decodeFailed)
        (fun n : Nat => n) [([4], [1, 5])] [4] =
        ((fun b => match b with | [0, n] => Except.ok n | _ => Except.error LedgerError.decodeFailed) [1, 5]).map
          (fun w => some ((fun n : Nat => n) w))) ∧
    (∀ (k v : Nat),
      (put_protobuf (fun n : Nat => [n]) (fun n : Nat => [1, n]) [([4], [1, 5])] k v).lookup
        ((fun n : Nat => [n]) k) = some ((fun n : Nat => [1, n]) v)) :=
  c6_schema_fallback_discipline (fun n : Nat => [n]) (fun n : Nat => [1, n])
    (fun b => match b with | [1, n] => .ok n | _ => .error LedgerError.decodeFailed)
    (fun b => match b with | [0, n] => .ok n | _ => .error LedgerError.decodeFailed)
    (fun n : Nat => n) [([4], [1, 5])] [4] [1, 5] rfl

/-- Claim C8: `multi_get` returns one result per input index in input
order — same length, and element `i` equals the independent single-key
`get` of input `i`, so a decode failure in one element never aborts or
alters any sibling element. -/
theorem c8_multi_get_elementwise {ι τ : Type}
    (key : ι → Bytes) (de : Bytes → Except LedgerError τ)
    (st : Store) (ks : List ι) :
    (multi_get key de st ks).length = ks.length ∧
    ∀ i : Nat, (multi_get key de st ks)[i]? = (ks[i]?).map (col_get key de st) := by
  constructor
  · simp [multi_get]
  · intro i
    simp only [multi_get, List.getElem?_map]
    rfl

/-- A ledger column's mutable state as seen by the cached count: the
backing store and the cached `entry_counter`. -/
structure ColState where
  store : Store
  counter : Int
deriving DecidableEq, Repr

/-- Largest `i64` value. -/
def I64_MAX : Int := 2 ^ 63 - 1

/-- Model of `LedgerColumn::count_column_using_cache`
(`ledger_column.rs` lines 280-297): return the cached counter unless it is
`DIRTY_COUNT`; otherwise scan the column from the start, count the
entries, clamp the count to `i64::MAX` when it exceeds it, store the
result into the counter and return it.  The forward scan of the backend
cannot fail in the model (the source's `iter` also always returns `Ok`),
so the `LedgerResult` wrapper is dropped. -/
def count_column_using_cache (cs : ColState) : Int × ColState :=
  if cs.counter ≠ DIRTY_COUNT then (cs.counter, cs)
  else
    let scanned : Int :=
      if (cs.store.length : Int) > I64_MAX then I64_MAX else (cs.store.length : Int)
    (scanned, { cs with counter := scanned })

/-- Claim C7: the cached count is returned as-is (state untouched, no
scan) whenever the counter is not the dirty sentinel; when it is the
sentinel the full scan count, clamped to `i64::MAX`, is both stored into
the counter and returned. -/
theorem c7_count_using_cache (cs : ColState) :
    (cs.counter ≠ DIRTY_COUNT →
      count_column_using_cache cs = (cs.counter, cs)) ∧
    (cs.counter = DIRTY_COUNT →
      count_column_using_cache cs =
        (min (cs.store.length : Int) I64_MAX,
         { cs with counter := min (cs.store.length : Int) I64_MAX })) := by
  constructor
  · intro h
    unfold count_column_using_cache
    rw [if_pos h]
  · intro h
    have hmin : (if (cs.store.length : Int) > I64_MAX then I64_MAX
        else (cs.store.length : Int)) = min (cs.store.length : Int) I64_MAX := by
      rcases le_or_lt (cs.store.length : Int) I64_MAX with hle | hgt
      · rw [if_neg (by linarith), min_eq_left hle]
      · rw [if_pos hgt, min_eq_right (le_of_lt hgt)]
    unfold count_column_using_cache
    rw [if_neg (by simp [h]), hmin]

/-- Witness for C7: a clean counter is returned without touching the
state; a dirty counter is replaced by the scan count of the single-entry
store. -/
theorem c7_witness :
    count_column_using_cache ⟨[([0], [1])], 5⟩ = (5, ⟨[([0], [1])], 5⟩) ∧
    count_column_using_cache ⟨[([0], [1])], DIRTY_COUNT⟩ = (1, ⟨[([0], [1])], 1⟩) := by
  constructor
  · exact (c7_count_using_cache ⟨[([0], [1])], 5⟩).1 (by decide)
  · have h := (c7_count_using_cache ⟨[([0], [1])], DIRTY_COUNT⟩).2 rfl
    rw [h]
    norm_num [I64_MAX]

/-- One item yielded by the backend range iterator: either a backend
error or a raw (key bytes, value bytes) pair. -/
abbrev RawItem := Except LedgerError (Bytes × Bytes)

/-- Model of `LedgerColumn::iter` (`ledger_column.rs` lines 176-189), the
raw-bytes iteration used internally by the Truncator: each yielded pair is
`pair.unwrap()`-ed — a backend error item panics, aborting the whole
traversal (modelled as `none`) — and for ok items only the key is decoded
(`C::index`), the value bytes passing through undecoded. -/
def col_iter {ι : Type} (index : Bytes → ι) :
    List RawItem → Option (List (ι × Bytes))
  | [] => some []
  | .error _ :: _ => none
  | .ok kv :: rest =>
    match col_iter index rest with
    | none => none
    | some l => some ((index kv.1, kv.2) :: l)

/-- Model of `LedgerColumn::iter_protobuf` (`ledger_column.rs` lines
512-523): every backend item maps to one output item; a backend error or
a protobuf decode failure becomes that item's `Err`, via the `?`
operators inside the per-item closure. -/
def iter_protobuf {ι σ : Type} (index : Bytes → ι)
    (pdec : Bytes → Except LedgerError σ) (items : List RawItem) :
    List (Except LedgerError (ι × σ)) :=
  items.map (fun r =>
    match r with
    | .error e => .error e
    | .ok kv => (pdec kv.2).map (fun d => (index kv.1, d)))

/-- Claim C9 counterexample: the claim as stated is false on the code.
In the raw-bytes iteration (`LedgerColumn::iter`) the source calls
`pair.unwrap()`, so a backend error yielded mid-iteration panics and
aborts the whole traversal: on the concrete item list
`[ok ([0], [1]), error io]` the traversal crashes (`none`) instead of
surviving the error. -/
theorem c9_counterexample :
    col_iter (fun b => b)
      [Except.ok ([0], [1]), Except.error LedgerError.io] = none := rfl

/-- Claim C9 (amended): the typed iteration surfaces every backend or
decode error as that item's own `Result` — it always yields exactly one
output item per backend item, in order, each depending only on its own
item — and the raw-bytes iteration decodes only the key and passes the
value bytes through undecoded, so it produces no value-decode error at
all; however a backend-level error during the raw-bytes iteration panics
and aborts that traversal (`pair.unwrap()` in the source). -/
theorem c9_iteration_error_handling {ι σ : Type} (index : Bytes → ι)
    (pdec : Bytes → Except LedgerError σ)
    (items : List RawItem) (goodItems : List (Bytes × Bytes)) :
    (iter_protobuf index pdec items).length = items.length ∧
    (∀ i : Nat, (iter_protobuf index pdec items)[i]? =
      (items[i]?).map (fun r =>
        match r with
        | .error e => .error e
        | .ok kv => (pdec kv.2).map (fun d => (index kv.1, d)))) ∧
    col_iter index (goodItems.map Except.ok) =
      some (goodItems.map (fun kv => (index kv.1, kv.2))) := by
  refine ⟨by simp [iter_protobuf], ?_, ?_⟩
  · intro i
    simp only [iter_protobuf, List.getElem?_map]
  · induction goodItems with
    | nil => rfl
    | cons kv rest ih =>
      simp only [List.map_cons, col_iter, ih]

/-- Modelled from the spec: the state the `LedgerTruncator` tick acts on
(`ledger_truncator.rs` is not among the provided sources; only its tests
are).  Every stored row of a slot-indexed column is a
`(column, slot, row)` triple, and `lowestCleanupSlot` is the persisted
low-watermark, the highest slot index already fully purged. -/
structure TruncatorState where
  rows : List (Nat × Nat × Nat)
  lowestCleanupSlot : Nat
deriving DecidableEq, Repr

/-- Slot index of a stored row. -/
def rowSlot (r : Nat × Nat × Nat) : Nat := r.2.1

/-- Modelled from the spec: truncation is warranted when the configured
size budget is nonzero and the storage footprint exceeds it, or when
finality has advanced past the current low-watermark (spec section 4.3
step 2). -/
def truncationWarranted (maxLedgerSize storageSize F lowestCleanupSlot : Nat) : Bool :=
  (decide (maxLedgerSize ≠ 0) && decide (storageSize > maxLedgerSize)) ||
    decide (lowestCleanupSlot < F - 1)

/-- Modelled from the spec: the truncation frontier chosen by one tick.
If the finalized slot `F` read from the finality provider is `0` the tick
is skipped outright (spec section 4.3 step 1); otherwise, when truncation
is warranted, the frontier is the hard safety bound `F - 1` (spec section
4.3 step 2: the frontier must never exceed `F - 1`). -/
def truncFrontier (F maxLedgerSize storageSize lowestCleanupSlot : Nat) : Option Nat :=
  if F = 0 then none
  else if truncationWarranted maxLedgerSize storageSize F lowestCleanupSlot
  then some (F - 1) else none

/-- Modelled from the spec: one truncation tick (spec section 4.3).  When
a frontier `T` is chosen, every row of every slot-indexed column with slot
at most `T` is range-deleted in one atomic batch and the low-watermark
advances to the end of the removed range (the size-capped incremental
batching of step 3 only splits this work across ticks and removes a
subset of the same rows, so the full-range tick is the per-tick upper
bound on what is deleted). -/
def truncatorTick (F maxLedgerSize storageSize : Nat) (st : TruncatorState) :
    TruncatorState :=
  match truncFrontier F maxLedgerSize storageSize st.lowestCleanupSlot with
  | none => st
  | some T =>
    { rows := st.rows.filter (fun r => decide (T < rowSlot r)),
      lowestCleanupSlot := max st.lowestCleanupSlot T }

/-- Claim C1: a truncation tick that read finalized slot `F` never removes
a row stored at any slot at or after `F`, and the frontier it chooses (if
any) never exceeds `F - 1`. -/
theorem c1_truncation_safety (F maxLedgerSize storageSize : Nat)
    (st : TruncatorState) (r : Nat × Nat × Nat)
    (hr : r ∈ st.rows) (hslot : F ≤ rowSlot r) :
    r ∈ (truncatorTick F maxLedgerSize storageSize st).rows ∧
    ∀ T, truncFrontier F maxLedgerSize storageSize st.lowestCleanupSlot = some T →
      T ≤ F - 1 := by
  unfold truncatorTick
  rcases hf : truncFrontier F maxLedgerSize storageSize st.lowestCleanupSlot with _ | T
  · exact ⟨hr, by intro T hT; cases hT⟩
  · have hF : F ≠ 0 ∧ T = F - 1 := by
      unfold truncFrontier at hf
      by_cases h0 : F = 0
      · rw [if_pos h0] at hf; cases hf
      · rw [if_neg h0] at hf
        by_cases hw : truncationWarranted maxLedgerSize storageSize F st.lowestCleanupSlot
        · rw [if_pos hw] at hf
          exact ⟨h0, (Option.some_inj.mp hf).symm⟩
        · rw [if_neg hw] at hf; cases hf

    constructor
    · simp only [List.mem_filter]
      refine ⟨hr, ?_⟩
      have h1 : T < rowSlot r := by
        rcases hF with ⟨h0, hT⟩
        have : F - 1 < F := Nat.sub_lt (Nat.pos_of_ne_zero h0) Nat.one_pos
        omega
      simpa using h1
    · intro T2 hT2
      rcases hF with ⟨_, hT⟩
      cases hT2
      omega

/-- Witness for C1 at a concrete tick: finalized slot `5`, one row at
slot `7`; the row survives and the frontier is at most `4`. -/
theorem c1_witness :
    (0, 7, 0) ∈ (truncatorTick 5 0 0 ⟨[(0, 7, 0)], 0⟩).rows ∧
    ∀ T, truncFrontier 5 0 0 (⟨[(0, 7, 0)], 0⟩ : TruncatorState).lowestCleanupSlot = some T →
      T ≤ 5 - 1 :=
  c1_truncation_safety 5 0 0 ⟨[(0, 7, 0)], 0⟩ (0, 7, 0) (by decide) (by decide)

/-- Claim C2: a tick that reads finalized slot `0` removes nothing at
all, whatever the configured size budget and the storage footprint: the
whole state, in particular every stored row of every column, is left
unchanged. -/
theorem c2_finality_zero_skips_tick (maxLedgerSize storageSize : Nat)
    (st : TruncatorState) :
    truncatorTick 0 maxLedgerSize storageSize st = st ∧
    (truncatorTick 0 maxLedgerSize storageSize st).rows = st.rows := by
  have h : truncatorTick 0 maxLedgerSize storageSize st = st := by
    unfold truncatorTick truncFrontier
    simp
  exact ⟨h, by rw [h]⟩
